import Mathlib

/-!
# DagMC index tables and bounding box accumulator

A shallow embedding of the inline members of `src/dagmc/DagMC.hpp`:
the entity index lookups `entity_by_index`, `index_by_handle`, `num_entities`,
the private value type `DagMC::BBOX` and the accessor `moab_instance_sptr`.

Conventions of the embedding:
* `int` arguments are `Int`; the casts `(unsigned)x` and the conversion to
  `size_t` are explicit reductions modulo `2^32` and `2^64`;
* a failed `assert`, an exception and an out-of-bounds access are values of
  `Failure` returned through `Except`;
* `std::vector<EntityHandle>` is a `List`, `std::unordered_map<EntityHandle,int>`
  is an association list with unique keys (`AList`);
* where the code only compares and selects values of type `double` (`valid`,
  `update`), a finite double is the rational number it denotes: `ℚ` is an
  ordered numeric domain without NaN, and `std::numeric_limits<double>::max()`
  is a rational number;
* where the code computes with `double` (`expand`), `Double` is the IEEE 754
  type, with rounding to nearest, infinities and NaN, and `DoubleBox.expand` is
  the method in that arithmetic; `BBOX.expand` is the same loop with exact sums.
-/

namespace moab

/-- The mesh database's opaque reference to an entity set (an unsigned integer). -/
abbrev EntityHandle := Nat

def vertex_handle_idx : Int := 0
def curve_handle_idx : Int := 1
def surfs_handle_idx : Int := 2
def vols_handle_idx : Int := 3
def groups_handle_idx : Int := 4

/-- The ways a call can end without a result. -/
inductive Failure where
  /-- An `assert(...)` whose condition is false. -/
  | assertion
  /-- An access past the end of an array or vector (undefined behaviour in C++). -/
  | out_of_bounds
  /-- The exception `std::out_of_range` of `unordered_map::at`. -/
  | out_of_range
  /-- A status other than `MB_SUCCESS` returned by a builder. -/
  | mb_failure
  deriving DecidableEq, Repr

/-- The cast `(unsigned)x` of an `int` to the 32 bit `unsigned int`. -/
def to_unsigned (x : Int) : Nat := (x % 2 ^ 32).toNat

/-- The conversion of an `int` to the 64 bit `size_t`. -/
def to_size_t (x : Int) : Nat := (x % 2 ^ 64).toNat

/-- The subtraction `a - b` of two `size_t` values, modulo `2^64`. -/
def size_t_sub (a b : Nat) : Nat := (a + 2 ^ 64 - b % 2 ^ 64) % 2 ^ 64

/-- The conversion of a `size_t` to the `unsigned int` return type. -/
def size_t_to_unsigned (a : Nat) : Nat := a % 2 ^ 32

/-- The two private index tables of a `DagMC` instance:
`std::vector<EntityHandle> entHandles[5]` and
`std::unordered_map<EntityHandle, int> entIndices`. -/
structure DagMC where
  entHandles : Fin 5 → List EntityHandle
  entIndices : AList (fun _ : EntityHandle => Int)

namespace DagMC

/-- The tables of a newly constructed instance: the vectors and the map are
default-initialised, hence empty. -/
def fresh : DagMC := ⟨fun _ => [], ∅⟩

/-- The array access `entHandles[dimension]` with an `int` subscript. -/
def entHandles_at (s : DagMC) (dimension : Int) : Except Failure (List EntityHandle) :=
  if h : 0 ≤ dimension ∧ dimension < 5 then
    .ok (s.entHandles ⟨dimension.toNat, by omega⟩)
  else .error .out_of_bounds

/-- The access `v[index]` of `std::vector::operator[]`, whose `int` subscript
is converted to `size_t`. -/
def vector_subscript (v : List EntityHandle) (index : Int) : Except Failure EntityHandle :=
  match v[to_size_t index]? with
  | some h => .ok h
  | none => .error .out_of_bounds

/-- The member `unordered_map::count`: `1` when the key is present, else `0`. -/
def umap_count (m : AList (fun _ : EntityHandle => Int)) (k : EntityHandle) : Nat :=
  if (m.lookup k).isSome then 1 else 0

/-- The member `unordered_map::at`: the mapped value, or `std::out_of_range`. -/
def umap_at (m : AList (fun _ : EntityHandle => Int)) (k : EntityHandle) : Except Failure Int :=
  match m.lookup k with
  | some v => .ok v
  | none => .error .out_of_range

/-- The inline method
```
assert(2 <= dimension && 3 >= dimension &&
       (unsigned)index < entHandles[dimension].size());
return entHandles[dimension][index];
```
The `&&` is short-circuit: `entHandles[dimension]` is read only for a
dimension that passed the first two comparisons. -/
def entity_by_index (s : DagMC) (dimension index : Int) : Except Failure EntityHandle :=
  if 2 ≤ dimension ∧ 3 ≥ dimension then
    match s.entHandles_at dimension with
    | .error e => .error e
    | .ok v =>
      if to_unsigned index < v.length then vector_subscript v index
      else .error .assertion
  else .error .assertion

/-- The inline `const` method
```
assert(entIndices.count(handle) > 0);
return entIndices.at(handle);
```
returning its result together with the tables after the call. -/
def index_by_handle (s : DagMC) (handle : EntityHandle) : Except Failure Int × DagMC :=
  if umap_count s.entIndices handle > 0 then (umap_at s.entIndices handle, s)
  else (.error .assertion, s)

/-- The inline method
```
assert(vertex_handle_idx <= dimension && groups_handle_idx >= dimension);
return entHandles[dimension].size() - 1;
```
The subtraction is done in `size_t` and the result converted to `unsigned int`. -/
def num_entities (s : DagMC) (dimension : Int) : Except Failure Nat :=
  if vertex_handle_idx ≤ dimension ∧ groups_handle_idx ≥ dimension then
    match s.entHandles_at dimension with
    | .error e => .error e
    | .ok v => .ok (size_t_to_unsigned (size_t_sub v.length 1))
  else .error .assertion

/-- Modelled from the spec: an entity set of the mesh database as `build_indices`
sees it (the mesh database itself is the external engine's). An entity set
carries either the geometry-dimension tag with an integer value, or the
category tag of a metadata group. -/
inductive EntitySet where
  | geom (handle : EntityHandle) (dimension : Int)
  | group (handle : EntityHandle)
  deriving DecidableEq, Repr

/-- The handle of an entity set. -/
def EntitySet.handle : EntitySet → EntityHandle
  | .geom h _ => h
  | .group h => h

/-- Appending a handle to one dimension's handle sequence (`push_back`). -/
def push_handle (s : DagMC) (d : Fin 5) (h : EntityHandle) : DagMC :=
  { s with entHandles := Function.update s.entHandles d (s.entHandles d ++ [h]) }

/-- Modelled from the spec: the tables before the first entity is appended.
Only the declaration of `build_indices` is in the source; per the spec every
handle sequence has "index 0 reserved/unused, ordinals start at 1", and the
reverse mapping starts empty. -/
def build_start : DagMC := ⟨fun _ => [0], ∅⟩

/-- Modelled from the spec: what `build_indices` does with one entity set, the
body of `build_indices` being absent from the source. An entity with a
geometry-dimension tag in 0..3 is appended to its dimension's handle sequence,
a group to the fifth sequence; a geometry-dimension tag outside {0,1,2,3}
fails. The reverse mapping `entIndices`, which the source declares as the
"surface and volume mapping from EntityHandle to DAGMC index", records the
ordinal of every surface and volume. -/
def build_step (s : DagMC) (e : EntitySet) : Except Failure DagMC :=
  match e with
  | .group h => .ok (s.push_handle 4 h)
  | .geom h d =>
    if hd : 0 ≤ d ∧ d ≤ 3 then
      let k : Fin 5 := ⟨d.toNat, by omega⟩
      let ordinal : Int := (s.entHandles k).length
      let s1 := s.push_handle k h
      if d = surfs_handle_idx ∨ d = vols_handle_idx then
        .ok { s1 with entIndices := s1.entIndices.insert h ordinal }
      else .ok s1
    else .error .mb_failure

/-- The run of `build_step` over the entity sets in the order of discovery. -/
def build_from (s : DagMC) : List EntitySet → Except Failure DagMC
  | [] => .ok s
  | e :: rest =>
    match build_step s e with
    | .error f => .error f
    | .ok s1 => build_from s1 rest

/-- Modelled from the spec: `build_indices`, of which the source has the
declaration only. It scans the entity sets of the mesh database, partitions
them by dimension (0-3) and by group category, and appends each to the
dimension's handle sequence in the order of discovery; the tables are rebuilt
from scratch. -/
def build_indices (mesh : List EntitySet) : Except Failure DagMC :=
  build_from build_start mesh

/-- The constant `BBOX::INFTY`, `std::numeric_limits<double>::max()`: the
largest finite double, `(2 - 2^(-52)) * 2^1023`. -/
def BBOX.INFTY : ℚ := (2 ^ 53 - 1) * 2 ^ 971

/-- The private value type `DagMC::BBOX`, an axis-aligned box; a newly
constructed box has `lower = {INFTY, INFTY, INFTY}` and
`upper = {-INFTY, -INFTY, -INFTY}`. -/
@[ext]
structure BBOX where
  lower : Fin 3 → ℚ := ![BBOX.INFTY, BBOX.INFTY, BBOX.INFTY]
  upper : Fin 3 → ℚ := ![-BBOX.INFTY, -BBOX.INFTY, -BBOX.INFTY]

namespace BBOX

/-- The method `valid()`:
`lower[0] <= upper[0] && lower[1] <= upper[1] && lower[2] <= upper[2]`. -/
def valid (b : BBOX) : Bool :=
  decide (b.lower 0 ≤ b.upper 0) && decide (b.lower 1 ≤ b.upper 1) &&
    decide (b.lower 2 ≤ b.upper 2)

/-- The method `update(double x, double y, double z)`: six assignments, each to
one cell of `lower` or `upper`, each reading that cell and one argument. -/
def update (b : BBOX) (x y z : ℚ) : BBOX :=
  { lower := ![if x < b.lower 0 then x else b.lower 0,
               if y < b.lower 1 then y else b.lower 1,
               if z < b.lower 2 then z else b.lower 2],
    upper := ![if x > b.upper 0 then x else b.upper 0,
               if y > b.upper 1 then y else b.upper 1,
               if z > b.upper 2 then z else b.upper 2] }

/-- The body of the loop of `expand` for one axis,
`upper[i] += bump; lower[i] -= bump;`, with the sum and the difference taken
exactly, without the rounding of `double`; `DoubleBox.expand_axis` is the same
body in the arithmetic of `double`. -/
def expand_axis (bump : ℚ) (b : BBOX) (i : Fin 3) : BBOX :=
  let b1 : BBOX := { b with upper := Function.update b.upper i (b.upper i + bump) }
  { b1 with lower := Function.update b1.lower i (b1.lower i - bump) }

/-- The method `expand(double bump)`, the loop `for (int i = 0; i < 3; i++)`,
with exact sums. The method in the arithmetic of `double` is
`DoubleBox.expand`: the two agree where the exact sums are doubles, and order
the corners alike on boxes of finite doubles. -/
def expand (b : BBOX) (bump : ℚ) : BBOX :=
  [0, 1, 2].foldl (expand_axis bump) b

/-- The overload `update(double xyz[3])`, which calls
`update(xyz[0], xyz[1], xyz[2])`. -/
def update_xyz (b : BBOX) (xyz : Fin 3 → ℚ) : BBOX :=
  b.update (xyz 0) (xyz 1) (xyz 2)

/-- A sequence of `update(xyz)` calls, in the order of the list. -/
def update_all (b : BBOX) (pts : List (Fin 3 → ℚ)) : BBOX :=
  pts.foldl update_xyz b

/-- The point `p` lies in the box: `lower[i] <= p[i] <= upper[i]` on every axis. -/
def contains (b : BBOX) (p : Fin 3 → ℚ) : Prop :=
  ∀ i, b.lower i ≤ p i ∧ p i ≤ b.upper i

end BBOX

/-- The invariant of the run of `build_step`: `seen` lists the handles
appended so far; every handle sequence has its reserved slot; every handle at
an ordinal `i ≥ 1` has been seen; and `entIndices` maps the handle at ordinal
`i ≥ 1` of the surface and of the volume sequence to `i`. -/
def BuildInv (s : DagMC) (seen : List EntityHandle) : Prop :=
  (∀ d, 1 ≤ (s.entHandles d).length) ∧
  (∀ d (i : Nat) (h : EntityHandle), 1 ≤ i → (s.entHandles d)[i]? = some h → h ∈ seen) ∧
  (∀ d, (d = 2 ∨ d = 3) → ∀ (i : Nat) (h : EntityHandle), 1 ≤ i →
    (s.entHandles d)[i]? = some h → s.entIndices.lookup h = some (i : Int))

/-- The exception object `std::runtime_error`, with its message. -/
structure runtime_error where
  what : String
  deriving DecidableEq, Repr

/-- The private members of a `DagMC` instance that refer to the mesh database:
`std::shared_ptr<Interface> MBI_shared_ptr`, `Interface* MBI` and
`bool moab_instance_created`. A pointer is `none` when it is null, else the
object it points to; the class `Interface` is the external engine's and is a
parameter here. -/
structure MeshPointers (Interface : Type) where
  MBI_shared_ptr : Option Interface
  MBI : Option Interface
  moab_instance_created : Bool

/-- An expression statement `e;`: the expression is evaluated, its value is
discarded, and control goes on to the next statement. -/
def expression_statement {α : Type} (_value : α) : Except runtime_error Unit :=
  .ok ()

/-- The method `moab_instance()`: `return MBI;`. -/
def moab_instance {Interface : Type} (m : MeshPointers Interface) : Option Interface :=
  m.MBI

/-- The method
```
if (nullptr == MBI_shared_ptr)
  std::runtime_error("MBI instance is not defined as a shared pointer !");
return MBI_shared_ptr;
```
returning its result together with the members after the call. The body of the
`if` is an expression statement that constructs a `std::runtime_error`; there
is no `throw`. -/
def moab_instance_sptr {Interface : Type} (m : MeshPointers Interface) :
    Except runtime_error (Option Interface) × MeshPointers Interface :=
  match (if m.MBI_shared_ptr.isNone then
      expression_statement
        (⟨"MBI instance is not defined as a shared pointer !"⟩ : runtime_error)
    else .ok ()) with
  | .error e => (.error e, m)
  | .ok () => (.ok m.MBI_shared_ptr, m)

/-- A value of the C++ type `double` (IEEE 754 binary64): a finite value, given
by the rational number it denotes, an infinity, or a NaN. The two zeros
denote the same number and are one value here. -/
inductive Double where
  | finite (value : ℚ)
  | pos_inf
  | neg_inf
  | nan
  deriving DecidableEq, Repr

/-- The rational numbers that are finite doubles: `m * 2^e` with an integer
`|m| < 2^53` and `-1074 <= e <= 971`. -/
def Double.representable (x : ℚ) : Prop :=
  ∃ m e : Int, |m| < 2 ^ 53 ∧ -1074 ≤ e ∧ e ≤ 971 ∧ x = (m : ℚ) * 2 ^ e

/-- Rounding of a rational number to the nearest integer, a tie going to the
even one. -/
def Double.round_half_even (r : ℚ) : Int :=
  if r - ⌊r⌋ < 1 / 2 then ⌊r⌋
  else if 1 / 2 < r - ⌊r⌋ then ⌊r⌋ + 1
  else if ⌊r⌋ % 2 = 0 then ⌊r⌋
  else ⌊r⌋ + 1

/-- The exponent of the spacing of the doubles around `x`: a double in the
binade `2^E <= |x| < 2^(E+1)` has 53 significant bits, so the spacing is
`2^(E-52)`, and never below that of the subnormal numbers, `2^(-1074)`. -/
def Double.quantum_exp (x : ℚ) : Int :=
  max (Int.log 2 |x| - 52) (-1074)

/-- The rounding of an exact result to a `double` in the default rounding mode
(to nearest, ties to even): the nearest multiple of the spacing, and an
infinity when that exceeds the largest finite double,
`std::numeric_limits<double>::max()`. -/
def Double.round_nearest (x : ℚ) : Double :=
  let y : ℚ := (Double.round_half_even (x / 2 ^ Double.quantum_exp x) : ℚ) *
    2 ^ Double.quantum_exp x
  if BBOX.INFTY < y then .pos_inf
  else if y < -BBOX.INFTY then .neg_inf
  else .finite y

/-- The sum `a + b` of two values of type `double`. -/
def Double.add : Double → Double → Double
  | .nan, _ => .nan
  | _, .nan => .nan
  | .pos_inf, .neg_inf => .nan
  | .neg_inf, .pos_inf => .nan
  | .pos_inf, _ => .pos_inf
  | _, .pos_inf => .pos_inf
  | .neg_inf, _ => .neg_inf
  | _, .neg_inf => .neg_inf
  | .finite x, .finite y => Double.round_nearest (x + y)

/-- The difference `a - b` of two values of type `double`. -/
def Double.sub : Double → Double → Double
  | .nan, _ => .nan
  | _, .nan => .nan
  | .pos_inf, .pos_inf => .nan
  | .neg_inf, .neg_inf => .nan
  | .pos_inf, _ => .pos_inf
  | _, .neg_inf => .pos_inf
  | .neg_inf, _ => .neg_inf
  | _, .pos_inf => .neg_inf
  | .finite x, .finite y => Double.round_nearest (x - y)

/-- The comparison `a <= b` of two values of type `double`; a comparison with
a NaN is false. -/
def Double.le : Double → Double → Bool
  | .nan, _ => false
  | _, .nan => false
  | .neg_inf, _ => true
  | _, .pos_inf => true
  | .finite x, .finite y => decide (x ≤ y)
  | .pos_inf, _ => false
  | _, .neg_inf => false

/-- The value type `DagMC::BBOX` with its corners as values of `double`,
infinities and NaN included: the box states on which the arithmetic of
`expand` is the arithmetic of `double`. -/
@[ext]
structure DoubleBox where
  lower : Fin 3 → Double
  upper : Fin 3 → Double

/-- The body of the loop of `expand` for one axis,
`upper[i] += bump; lower[i] -= bump;`, in the arithmetic of `double`. -/
def DoubleBox.expand_axis (bump : Double) (b : DoubleBox) (i : Fin 3) : DoubleBox :=
  let b1 : DoubleBox := { b with upper := Function.update b.upper i ((b.upper i).add bump) }
  { b1 with lower := Function.update b1.lower i ((b1.lower i).sub bump) }

/-- The method `expand(double bump)`, the loop `for (int i = 0; i < 3; i++)`,
in the arithmetic of `double`. -/
def DoubleBox.expand (b : DoubleBox) (bump : Double) : DoubleBox :=
  [0, 1, 2].foldl (DoubleBox.expand_axis bump) b

/-- The method `valid()` on corners of type `double`. -/
def DoubleBox.valid (b : DoubleBox) : Bool :=
  (b.lower 0).le (b.upper 0) && (b.lower 1).le (b.upper 1) && (b.lower 2).le (b.upper 2)

/-- A box with finite corners, as a box with corners of type `double`. -/
def BBOX.to_double (b : BBOX) : DoubleBox :=
  ⟨fun i => .finite (b.lower i), fun i => .finite (b.upper i)⟩

/-! ## Arithmetic of the casts -/

theorem to_unsigned_of_nonneg {x : Int} (h0 : 0 ≤ x) (h1 : x < 2 ^ 32) :
    to_unsigned x = x.toNat := by
  unfold to_unsigned
  rw [Int.emod_eq_of_lt h0 h1]

theorem to_unsigned_of_neg {x : Int} (h0 : -2 ^ 31 ≤ x) (h1 : x < 0) :
    2 ^ 31 ≤ to_unsigned x := by
  unfold to_unsigned
  have h : x % 2 ^ 32 = x + 2 ^ 32 := by
    rw [← Int.add_emod_self]
    exact Int.emod_eq_of_lt (by omega) (by omega)
  rw [h]
  omega

theorem to_size_t_of_nonneg {x : Int} (h0 : 0 ≤ x) (h1 : x < 2 ^ 64) :
    to_size_t x = x.toNat := by
  unfold to_size_t
  rw [Int.emod_eq_of_lt h0 h1]

theorem size_t_sub_one_of_pos {n : Nat} (h0 : 1 ≤ n) (h1 : n ≤ 2 ^ 32) :
    size_t_to_unsigned (size_t_sub n 1) = n - 1 := by
  unfold size_t_to_unsigned size_t_sub
  omega

/-! ## The accessors on a dimension in range -/

theorem entHandles_at_fin (s : DagMC) (d : Fin 5) :
    s.entHandles_at ((d : Nat) : Int) = .ok (s.entHandles d) := by
  unfold entHandles_at
  have h : 0 ≤ ((d : Nat) : Int) ∧ ((d : Nat) : Int) < 5 := by omega
  rw [dif_pos h]
  congr

theorem exists_fin_of_range (dimension : Int) (h : 0 ≤ dimension ∧ dimension ≤ 4) :
    ∃ d : Fin 5, ((d : Nat) : Int) = dimension :=
  ⟨⟨dimension.toNat, by omega⟩, by simp; omega⟩

theorem num_entities_fin (s : DagMC) (d : Fin 5) :
    s.num_entities ((d : Nat) : Int) =
      .ok (size_t_to_unsigned (size_t_sub (s.entHandles d).length 1)) := by
  unfold num_entities vertex_handle_idx groups_handle_idx
  have h : (0 : Int) ≤ ((d : Nat) : Int) ∧ (4 : Int) ≥ ((d : Nat) : Int) := by omega
  rw [if_pos h, entHandles_at_fin]

theorem entity_by_index_fin (s : DagMC) (d : Fin 5) (hd : d = 2 ∨ d = 3) (index : Int) :
    s.entity_by_index ((d : Nat) : Int) index =
      if to_unsigned index < (s.entHandles d).length then
        vector_subscript (s.entHandles d) index
      else .error .assertion := by
  unfold entity_by_index
  have h : (2 : Int) ≤ ((d : Nat) : Int) ∧ (3 : Int) ≥ ((d : Nat) : Int) := by
    rcases hd with rfl | rfl <;> decide
  rw [if_pos h, entHandles_at_fin]

theorem entity_by_index_in_bounds (s : DagMC) (d : Fin 5) (hd : d = 2 ∨ d = 3) (index : Int)
    (h0 : 0 ≤ index) (h1 : index < 2 ^ 32) (hlt : index.toNat < (s.entHandles d).length) :
    s.entity_by_index ((d : Nat) : Int) index =
      .ok ((s.entHandles d).get ⟨index.toNat, hlt⟩) := by
  rw [entity_by_index_fin s d hd, to_unsigned_of_nonneg h0 h1, if_pos hlt]
  unfold vector_subscript
  rw [to_size_t_of_nonneg h0 (by omega), List.getElem?_eq_getElem hlt]
  rfl

/-- On a handle sequence that has its reserved slot and at most `2^32`
entries, `num_entities` is the length minus one. -/
theorem num_entities_of_nonempty (s : DagMC) (d : Fin 5)
    (h0 : 1 ≤ (s.entHandles d).length) (h1 : (s.entHandles d).length ≤ 2 ^ 32) :
    s.num_entities ((d : Nat) : Int) = .ok ((s.entHandles d).length - 1) := by
  rw [num_entities_fin, size_t_sub_one_of_pos h0 h1]

/-! ## C1: `num_entities` on an empty handle sequence -/

/-- C1 (evaluation at the failing input): on a newly constructed instance the
handle sequence of dimension 0 is empty, so it holds no real entity, and
`num_entities(0)` returns `4294967295`, the wrapped value of `0 - 1`, instead
of a count of entities. -/
theorem num_entities_fresh_wraps :
    (fresh.entHandles 0).length = 0 ∧ fresh.num_entities 0 = .ok 4294967295 := by
  constructor <;> rfl

/-! ## C2: `entity_by_index` -/

/-- C2 (counterexample): with the surface table `[0, 7]` (one real surface),
`num_entities(2)` is `1`, index `0` is not a valid base-1 ordinal, and yet
`entity_by_index(2, 0)` does not fail: it returns the content of the reserved
slot. -/
theorem entity_by_index_zero_returns :
    (DagMC.mk (fun _ => [0, 7]) ∅).num_entities 2 = .ok 1 ∧
    (DagMC.mk (fun _ => [0, 7]) ∅).entity_by_index 2 0 = .ok 0 := by
  constructor <;> rfl

/-- C2 (amended): for an `int` index and handle sequences of at most `2^31`
entries, `entity_by_index(dimension, index)` returns the handle stored at
position `index` of the dimension's handle sequence when `dimension` is 2 or 3
and `0 <= index < length` (index 0, the reserved slot, included), and fails
its assertion for every other input: a dimension outside {2,3}, a negative
index, an index past the end. -/
theorem entity_by_index_spec (s : DagMC) (dimension index : Int)
    (hi : -2 ^ 31 ≤ index ∧ index < 2 ^ 31)
    (hlen : ∀ d, (s.entHandles d).length ≤ 2 ^ 31) :
    (∀ d : Fin 5, ((d : Nat) : Int) = dimension → (d = 2 ∨ d = 3) → 0 ≤ index →
      index < (s.entHandles d).length →
      ∃ h, (s.entHandles d)[index.toNat]? = some h ∧
        s.entity_by_index dimension index = .ok h) ∧
    ((¬ ∃ d : Fin 5, ((d : Nat) : Int) = dimension ∧ (d = 2 ∨ d = 3) ∧ 0 ≤ index ∧
      index < (s.entHandles d).length) →
      s.entity_by_index dimension index = .error .assertion) := by
  constructor
  · intro d hd h23 h0 hlt
    subst hd
    have hlt' : index.toNat < (s.entHandles d).length := by omega
    refine ⟨(s.entHandles d).get ⟨index.toNat, hlt'⟩, ?_, ?_⟩
    · rw [List.getElem?_eq_getElem hlt']
      rfl
    · exact entity_by_index_in_bounds s d h23 index h0 (by omega) hlt'
  · intro hne
    by_cases hdim : 2 ≤ dimension ∧ 3 ≥ dimension
    · obtain ⟨d, hd⟩ := exists_fin_of_range dimension (by omega)
      subst hd
      have h23 : d = 2 ∨ d = 3 := by
        rcases hdim with ⟨h2, h3⟩
        have : (d : Nat) = 2 ∨ (d : Nat) = 3 := by omega
        rcases this with h | h
        · left; exact Fin.ext h
        · right; exact Fin.ext h
      rw [entity_by_index_fin s d h23]
      have hge : ¬ to_unsigned index < (s.entHandles d).length := by
        by_cases h0 : 0 ≤ index
        · rw [to_unsigned_of_nonneg h0 (by omega)]
          intro hlt
          exact hne ⟨d, rfl, h23, h0, by omega⟩
        · have := to_unsigned_of_neg hi.1 (by omega : index < 0)
          have := hlen d
          omega
      rw [if_neg hge]
    · unfold entity_by_index
      rw [if_neg hdim]

/-- C2 (witness): the amended statement at the surface table `[0, 7]`,
dimension 2, index 1. -/
theorem entity_by_index_spec_witness :
    (∀ d : Fin 5, ((d : Nat) : Int) = 2 → (d = 2 ∨ d = 3) → (0 : Int) ≤ 1 →
      (1 : Int) < ((DagMC.mk (fun _ => [0, 7]) ∅).entHandles d).length →
      ∃ h, ((DagMC.mk (fun _ => [0, 7]) ∅).entHandles d)[(1 : Int).toNat]? = some h ∧
        (DagMC.mk (fun _ => [0, 7]) ∅).entity_by_index 2 1 = .ok h) ∧
    ((¬ ∃ d : Fin 5, ((d : Nat) : Int) = 2 ∧ (d = 2 ∨ d = 3) ∧ (0 : Int) ≤ 1 ∧
      (1 : Int) < ((DagMC.mk (fun _ => [0, 7]) ∅).entHandles d).length) →
      (DagMC.mk (fun _ => [0, 7]) ∅).entity_by_index 2 1 = .error .assertion) :=
  entity_by_index_spec (DagMC.mk (fun _ => [0, 7]) ∅) 2 1 (by decide)
    (fun _ => by simp)

/-! ## C3: `index_by_handle` -/

theorem index_by_handle_of_lookup (s : DagMC) (handle : EntityHandle) (i : Int)
    (h : s.entIndices.lookup handle = some i) :
    (s.index_by_handle handle).1 = .ok i := by
  unfold index_by_handle umap_count umap_at
  simp [h]

theorem index_by_handle_of_absent (s : DagMC) (handle : EntityHandle)
    (h : s.entIndices.lookup handle = none) :
    (s.index_by_handle handle).1 = .error .assertion := by
  unfold index_by_handle umap_count
  simp [h]

/-- C3: `index_by_handle(handle)` returns a value exactly when `handle` is a
key of `entIndices`; the value returned is exactly the one stored for the
handle; for an absent handle the call fails its assertion (no default value,
no exception of `at`); and the tables after the call are the tables before
it, so no entry is inserted. -/
theorem index_by_handle_spec (s : DagMC) (handle : EntityHandle) :
    ((∃ i, (s.index_by_handle handle).1 = .ok i) ↔ handle ∈ s.entIndices) ∧
    (∀ i, (s.index_by_handle handle).1 = .ok i ↔ s.entIndices.lookup handle = some i) ∧
    ((s.index_by_handle handle).1 = .error .assertion ↔ handle ∉ s.entIndices) ∧
    (s.index_by_handle handle).2 = s := by
  have hsnd : (s.index_by_handle handle).2 = s := by
    unfold index_by_handle
    split <;> rfl
  cases hl : s.entIndices.lookup handle with
  | none =>
    have hmem : handle ∉ s.entIndices := AList.lookup_eq_none.mp hl
    have hres := index_by_handle_of_absent s handle hl
    refine ⟨?_, ?_, ?_, hsnd⟩
    · rw [hres]
      constructor
      · rintro ⟨i, hi⟩
        cases hi
      · intro h
        exact absurd h hmem
    · intro i
      rw [hres]
      constructor <;> intro h <;> cases h
    · rw [hres]
      exact ⟨fun _ => hmem, fun _ => rfl⟩
  | some v =>
    have hmem : handle ∈ s.entIndices := by
      rw [← AList.lookup_isSome, hl]
      rfl
    have hres := index_by_handle_of_lookup s handle v hl
    refine ⟨?_, ?_, ?_, hsnd⟩
    · rw [hres]
      exact ⟨fun _ => hmem, fun _ => ⟨v, rfl⟩⟩
    · intro i
      rw [hres]
      constructor
      · intro h
        cases h
        rfl
      · intro h
        cases h
        rfl
    · rw [hres]
      constructor
      · intro h
        cases h
      · intro h
        exact absurd hmem h

/-! ## C5: the dimensions `num_entities` accepts -/

/-- C5: `num_entities(dimension)` returns a value exactly for the dimensions
0 through 4, fails its assertion exactly for the dimensions below 0 or above 4,
and in no state and for no dimension reads outside the five handle sequences. -/
theorem num_entities_accepts_iff (s : DagMC) (dimension : Int) :
    ((∃ n, s.num_entities dimension = .ok n) ↔ (0 ≤ dimension ∧ dimension ≤ 4)) ∧
    (s.num_entities dimension = .error .assertion ↔ ¬ (0 ≤ dimension ∧ dimension ≤ 4)) ∧
    s.num_entities dimension ≠ .error .out_of_bounds := by
  by_cases h : 0 ≤ dimension ∧ dimension ≤ 4
  · obtain ⟨d, hd⟩ := exists_fin_of_range dimension h
    subst hd
    rw [num_entities_fin]
    refine ⟨⟨fun _ => h, fun _ => ⟨_, rfl⟩⟩, ⟨fun hc => ?_, fun hc => absurd h hc⟩, ?_⟩
    · cases hc
    · intro hc
      cases hc
  · have hres : s.num_entities dimension = .error .assertion := by
      unfold num_entities vertex_handle_idx groups_handle_idx
      rw [if_neg (by omega)]
    rw [hres]
    refine ⟨⟨?_, fun hc => absurd hc h⟩, ⟨fun _ => h, fun _ => rfl⟩, ?_⟩
    · rintro ⟨n, hn⟩
      cases hn
    · intro hc
      cases hc

/-! ## C4: the index bijection on the tables `build_indices` produces -/

theorem getElem?_push {l : List EntityHandle} {h x : EntityHandle} {i : Nat}
    (hx : (l ++ [h])[i]? = some x) : l[i]? = some x ∨ (i = l.length ∧ x = h) := by
  rw [List.getElem?_append] at hx
  split at hx
  · exact Or.inl hx
  · rename_i hlt
    right
    have hi : i - l.length = 0 := by
      by_contra hne
      have : ([h] : List EntityHandle)[i - l.length]? = none := by
        apply List.getElem?_eq_none
        simp
        omega
      rw [this] at hx
      cases hx
    rw [hi] at hx
    simp at hx
    exact ⟨by omega, hx.symm⟩

theorem push_handle_same (s : DagMC) (k : Fin 5) (h : EntityHandle) :
    (s.push_handle k h).entHandles k = s.entHandles k ++ [h] := by
  simp [push_handle]

theorem push_handle_other (s : DagMC) {k d : Fin 5} (h : EntityHandle) (hne : d ≠ k) :
    (s.push_handle k h).entHandles d = s.entHandles d := by
  simp [push_handle, Function.update_noteq hne]

theorem buildInv_start : BuildInv build_start [] := by
  refine ⟨fun d => by simp [build_start], ?_, ?_⟩
  · intro d i h hi hget
    have : ([0] : List EntityHandle)[i]? = none := List.getElem?_eq_none (by simpa using hi)
    rw [show (build_start.entHandles d) = [0] from rfl, this] at hget
    cases hget
  · intro d _ i h hi hget
    have : ([0] : List EntityHandle)[i]? = none := List.getElem?_eq_none (by simpa using hi)
    rw [show (build_start.entHandles d) = [0] from rfl, this] at hget
    cases hget

/-- Appending a new handle to a sequence, without an entry in `entIndices`,
keeps the invariant when the sequence is not that of the surfaces or volumes. -/
theorem buildInv_push (s : DagMC) (seen : List EntityHandle) (k : Fin 5) (h : EntityHandle)
    (hinv : BuildInv s seen) (hk : ¬ (k = 2 ∨ k = 3)) :
    BuildInv (s.push_handle k h) (h :: seen) := by
  obtain ⟨hlen, hseen, hmap⟩ := hinv
  refine ⟨?_, ?_, ?_⟩
  · intro d
    by_cases hd : d = k
    · subst hd
      rw [push_handle_same]
      simp
    · rw [push_handle_other s h hd]
      exact hlen d
  · intro d i x hi hget
    by_cases hd : d = k
    · subst hd
      rw [push_handle_same] at hget
      rcases getElem?_push hget with hold | ⟨_, hx⟩
      · exact List.mem_cons_of_mem _ (hseen d i x hi hold)
      · rw [hx]
        exact List.mem_cons_self _ _
    · rw [push_handle_other s h hd] at hget
      exact List.mem_cons_of_mem _ (hseen d i x hi hget)
  · intro d hd i x hi hget
    have hne : d ≠ k := by
      rintro rfl
      exact hk hd
    rw [push_handle_other s h hne] at hget
    exact hmap d hd i x hi hget

/-- Appending a new handle to the surface or volume sequence and recording its
ordinal in `entIndices` keeps the invariant. -/
theorem buildInv_push_insert (s : DagMC) (seen : List EntityHandle) (k : Fin 5)
    (h : EntityHandle) (hinv : BuildInv s seen) (hnew : h ∉ seen) :
    BuildInv { s.push_handle k h with
      entIndices := (s.push_handle k h).entIndices.insert h ((s.entHandles k).length : Int) }
      (h :: seen) := by
  obtain ⟨hlen, hseen, hmap⟩ := hinv
  refine ⟨?_, ?_, ?_⟩
  · intro d
    show 1 ≤ ((s.push_handle k h).entHandles d).length
    by_cases hd : d = k
    · subst hd
      rw [push_handle_same]
      simp
    · rw [push_handle_other s h hd]
      exact hlen d
  · intro d i x hi hget
    change ((s.push_handle k h).entHandles d)[i]? = some x at hget
    by_cases hd : d = k
    · subst hd
      rw [push_handle_same] at hget
      rcases getElem?_push hget with hold | ⟨_, hx⟩
      · exact List.mem_cons_of_mem _ (hseen d i x hi hold)
      · rw [hx]
        exact List.mem_cons_self _ _
    · rw [push_handle_other s h hd] at hget
      exact List.mem_cons_of_mem _ (hseen d i x hi hget)
  · intro d hd i x hi hget
    change ((s.push_handle k h).entHandles d)[i]? = some x at hget
    show ((s.push_handle k h).entIndices.insert h ((s.entHandles k).length : Int)).lookup x
      = some (i : Int)
    have hkeep : ∀ y : EntityHandle, y ∈ seen →
        ((s.push_handle k h).entIndices.insert h ((s.entHandles k).length : Int)).lookup y
          = s.entIndices.lookup y := by
      intro y hy
      have hyh : y ≠ h := by
        rintro rfl
        exact hnew hy
      rw [AList.lookup_insert_ne hyh]
      rfl
    by_cases hdk : d = k
    · subst hdk
      rw [push_handle_same] at hget
      rcases getElem?_push hget with hold | ⟨hi', hx⟩
      · rw [hkeep x (hseen d i x hi hold)]
        exact hmap d hd i x hi hold
      · rw [hx, hi', AList.lookup_insert]
    · rw [push_handle_other s h hdk] at hget
      rw [hkeep x (hseen d i x hi hget)]
      exact hmap d hd i x hi hget

theorem buildInv_step (s s1 : DagMC) (seen : List EntityHandle) (e : EntitySet)
    (hinv : BuildInv s seen) (hnew : e.handle ∉ seen) (hstep : build_step s e = .ok s1) :
    BuildInv s1 (e.handle :: seen) := by
  cases e with
  | group h =>
    simp only [build_step] at hstep
    cases hstep
    exact buildInv_push s seen 4 h hinv (by decide)
  | geom h d =>
    simp only [build_step] at hstep
    split at hstep
    · rename_i hd
      split at hstep
      · cases hstep
        exact buildInv_push_insert s seen _ h hinv hnew
      · rename_i h23
        cases hstep
        apply buildInv_push s seen _ h hinv
        intro hk
        apply h23
        unfold surfs_handle_idx vols_handle_idx
        rcases hk with hk | hk
        · left
          have := congrArg Fin.val hk
          simp at this
          omega
        · right
          have := congrArg Fin.val hk
          simp at this
          omega
    · cases hstep

theorem buildInv_from (mesh : List EntitySet) :
    ∀ (s s1 : DagMC) (seen : List EntityHandle), BuildInv s seen →
      (mesh.map EntitySet.handle).Nodup → (∀ h ∈ mesh.map EntitySet.handle, h ∉ seen) →
      build_from s mesh = .ok s1 → ∃ seen1, BuildInv s1 seen1 := by
  induction mesh with
  | nil =>
    intro s s1 seen hinv _ _ hrun
    simp only [build_from] at hrun
    cases hrun
    exact ⟨seen, hinv⟩
  | cons e rest ih =>
    intro s s1 seen hinv hnodup hfresh hrun
    simp only [build_from] at hrun
    cases hstep : build_step s e with
    | error f =>
      rw [hstep] at hrun
      cases hrun
    | ok s2 =>
      rw [hstep] at hrun
      simp only [List.map_cons, List.nodup_cons] at hnodup
      have hnew : e.handle ∉ seen := hfresh _ (by simp)
      refine ih s2 s1 (e.handle :: seen) (buildInv_step s s2 seen e hinv hnew hstep)
        hnodup.2 ?_ hrun
      intro h hmem hseen
      rcases List.mem_cons.mp hseen with heq | hold
      · exact hnodup.1 (heq ▸ hmem)
      · exact hfresh h (by simp at hmem ⊢; exact Or.inr hmem) hold

theorem build_from_succeeds (mesh : List EntitySet) :
    ∀ s : DagMC, (∀ h d, EntitySet.geom h d ∈ mesh → 0 ≤ d ∧ d ≤ 3) →
      ∃ s1, build_from s mesh = .ok s1 := by
  induction mesh with
  | nil =>
    intro s _
    exact ⟨s, rfl⟩
  | cons e rest ih =>
    intro s htags
    have hstep : ∃ s2, build_step s e = .ok s2 := by
      cases e with
      | group h => exact ⟨_, rfl⟩
      | geom h d =>
        have hd := htags h d (List.mem_cons_self _ _)
        simp only [build_step, dif_pos hd]
        split
        · exact ⟨_, rfl⟩
        · exact ⟨_, rfl⟩
    obtain ⟨s2, hs2⟩ := hstep
    obtain ⟨s1, hs1⟩ := ih s2 (fun h d hmem => htags h d (List.mem_cons_of_mem _ hmem))
    refine ⟨s1, ?_⟩
    simp only [build_from, hs2]
    exact hs1

/-- The modelled `build_indices` produces tables for every mesh database whose
geometry-dimension tags all lie in 0..3. -/
theorem build_indices_succeeds (mesh : List EntitySet)
    (htags : ∀ h d, EntitySet.geom h d ∈ mesh → 0 ≤ d ∧ d ≤ 3) :
    ∃ s, build_indices mesh = .ok s :=
  build_from_succeeds mesh build_start htags

/-- C4: in the tables `build_indices` produces from a mesh database whose
handles are unique, for dimension 2 or 3 and every valid ordinal
`1 <= index <= num_entities(dimension)`, `entity_by_index` returns a handle and
`index_by_handle` of that handle returns `index`. -/
theorem index_bijection (mesh : List EntitySet) (s : DagMC)
    (hnodup : (mesh.map EntitySet.handle).Nodup) (hbuilt : build_indices mesh = .ok s)
    (dimension index : Int) (n : Nat) (hd : dimension = 2 ∨ dimension = 3)
    (hn : s.num_entities dimension = .ok n) (h1 : 1 ≤ index) (h2 : index ≤ n) :
    ∃ h, s.entity_by_index dimension index = .ok h ∧
      (s.index_by_handle h).1 = .ok index := by
  obtain ⟨seen, hlen, _, hmap⟩ :=
    buildInv_from mesh build_start s [] buildInv_start hnodup (fun _ _ hc => by cases hc) hbuilt
  obtain ⟨d, hdd⟩ := exists_fin_of_range dimension (by omega)
  subst hdd
  have h23 : d = 2 ∨ d = 3 := by
    have : (d : Nat) = 2 ∨ (d : Nat) = 3 := by omega
    rcases this with h | h
    · left; exact Fin.ext h
    · right; exact Fin.ext h
  rw [num_entities_fin] at hn
  have hn' : size_t_to_unsigned (size_t_sub (s.entHandles d).length 1) = n :=
    Except.ok.inj hn
  have hlen1 := hlen d
  have hlt : index.toNat < (s.entHandles d).length := by
    unfold size_t_to_unsigned size_t_sub at hn'
    omega
  have hsmall : index < 2 ^ 32 := by
    unfold size_t_to_unsigned at hn'
    omega
  refine ⟨(s.entHandles d).get ⟨index.toNat, hlt⟩,
    entity_by_index_in_bounds s d h23 index (by omega) hsmall hlt, ?_⟩
  apply index_by_handle_of_lookup
  have hget : (s.entHandles d)[index.toNat]? = some ((s.entHandles d).get ⟨index.toNat, hlt⟩) := by
    rw [List.getElem?_eq_getElem hlt]
    rfl
  have := hmap d h23 index.toNat _ (by omega) hget
  rw [this, Int.toNat_of_nonneg (by omega)]

/-- C4 (witness): a mesh database of two surfaces, a volume, a vertex and a
group; the second surface, at ordinal 2. -/
theorem index_bijection_witness :
    ∃ s, build_indices [.geom 10 2, .geom 11 3, .geom 12 2, .geom 5 0, .group 20] = .ok s ∧
      ∃ h, s.entity_by_index 2 2 = .ok h ∧ (s.index_by_handle h).1 = .ok 2 :=
  ⟨_, rfl, index_bijection [.geom 10 2, .geom 11 3, .geom 12 2, .geom 5 0, .group 20] _
    (by decide) rfl 2 2 2 (Or.inl rfl) rfl (by decide) (by decide)⟩

/-! ## The bounding box accumulator -/

namespace BBOX

theorem INFTY_pos : (0 : ℚ) < INFTY := by
  unfold INFTY
  norm_num

theorem ite_lt_eq_min (x l : ℚ) : (if x < l then x else l) = min x l := by
  split_ifs with h
  · exact (min_eq_left h.le).symm
  · exact (min_eq_right (not_lt.mp h)).symm

theorem ite_gt_eq_max (x u : ℚ) : (if x > u then x else u) = max x u := by
  split_ifs with h
  · exact (max_eq_left (le_of_lt h)).symm
  · exact (max_eq_right (not_lt.mp h)).symm

theorem update_xyz_lower (b : BBOX) (p : Fin 3 → ℚ) (i : Fin 3) :
    (b.update_xyz p).lower i = min (p i) (b.lower i) := by
  fin_cases i <;> simp [update_xyz, update, ite_lt_eq_min]

theorem update_xyz_upper (b : BBOX) (p : Fin 3 → ℚ) (i : Fin 3) :
    (b.update_xyz p).upper i = max (p i) (b.upper i) := by
  fin_cases i <;> simp [update_xyz, update, ite_gt_eq_max]

theorem update_eq_update_xyz (b : BBOX) (x y z : ℚ) :
    b.update x y z = b.update_xyz ![x, y, z] := by
  simp [update_xyz]

theorem valid_iff (b : BBOX) : b.valid = true ↔ ∀ i, b.lower i ≤ b.upper i := by
  unfold valid
  simp only [Bool.and_eq_true, decide_eq_true_eq]
  constructor
  · rintro ⟨⟨h0, h1⟩, h2⟩ i
    fin_cases i
    · exact h0
    · exact h1
    · exact h2
  · intro h
    exact ⟨⟨h 0, h 1⟩, h 2⟩

theorem fresh_not_valid : ({} : BBOX).valid = false := by
  rw [Bool.eq_false_iff, Ne, valid_iff]
  intro h
  have h0 := h 0
  have hpos := INFTY_pos
  simp at h0
  linarith

theorem update_xyz_contains (b : BBOX) (p : Fin 3 → ℚ) : (b.update_xyz p).contains p := by
  intro i
  rw [update_xyz_lower, update_xyz_upper]
  exact ⟨min_le_left _ _, le_max_left _ _⟩

theorem update_xyz_valid (b : BBOX) (p : Fin 3 → ℚ) : (b.update_xyz p).valid = true := by
  rw [valid_iff]
  intro i
  exact le_trans (update_xyz_contains b p i).1 (update_xyz_contains b p i).2

theorem update_all_cons (b : BBOX) (p : Fin 3 → ℚ) (pts : List (Fin 3 → ℚ)) :
    b.update_all (p :: pts) = (b.update_xyz p).update_all pts := rfl

theorem update_all_valid (pts : List (Fin 3 → ℚ)) :
    ∀ b : BBOX, b.valid = true → (b.update_all pts).valid = true := by
  induction pts with
  | nil => intro b hb; exact hb
  | cons p rest ih =>
    intro b _
    rw [update_all_cons]
    exact ih _ (update_xyz_valid b p)

/-- C6: starting from a newly constructed box, after any finite sequence of
`update` calls `valid()` returns true if and only if the sequence is not
empty; in particular a new box is not valid and one update of any point makes
it valid. -/
theorem valid_iff_updated (pts : List (Fin 3 → ℚ)) :
    ((({} : BBOX).update_all pts).valid = true ↔ pts ≠ []) ∧
    ({} : BBOX).valid = false ∧
    ∀ x y z : ℚ, (({} : BBOX).update x y z).valid = true := by
  refine ⟨?_, fresh_not_valid, ?_⟩
  · cases pts with
    | nil =>
      constructor
      · intro h
        have hf := fresh_not_valid
        change ({} : BBOX).valid = true at h
        rw [hf] at h
        cases h
      · intro h
        exact absurd rfl h
    | cons p rest =>
      constructor
      · intro _ hc
        cases hc
      · intro _
        rw [update_all_cons]
        exact update_all_valid rest _ (update_xyz_valid _ p)
  · intro x y z
    rw [update_eq_update_xyz]
    exact update_xyz_valid _ _

/-- C7: `update` widens the box monotonically: on every axis the lower corner
does not increase and the upper corner does not decrease, so a point the box
contained before the update is contained after it. -/
theorem update_monotone (b : BBOX) (x y z : ℚ) :
    (∀ i, (b.update x y z).lower i ≤ b.lower i ∧ b.upper i ≤ (b.update x y z).upper i) ∧
    (∀ p, b.contains p → (b.update x y z).contains p) := by
  have hmono : ∀ i, (b.update x y z).lower i ≤ b.lower i ∧
      b.upper i ≤ (b.update x y z).upper i := by
    intro i
    rw [update_eq_update_xyz, update_xyz_lower, update_xyz_upper]
    exact ⟨min_le_right _ _, le_max_right _ _⟩
  refine ⟨hmono, ?_⟩
  intro p hp i
  exact ⟨le_trans (hmono i).1 (hp i).1, le_trans (hp i).2 (hmono i).2⟩

theorem fresh_lower (i : Fin 3) : ({} : BBOX).lower i = INFTY := by
  fin_cases i <;> rfl

theorem fresh_upper (i : Fin 3) : ({} : BBOX).upper i = -INFTY := by
  fin_cases i <;> rfl

/-- The lower corner after a run of updates is a lower bound of the points'
coordinates and of the previous corner, and is one of these values. -/
theorem update_all_lower (pts : List (Fin 3 → ℚ)) (i : Fin 3) :
    ∀ b : BBOX, (∀ p ∈ pts, (b.update_all pts).lower i ≤ p i) ∧
      (b.update_all pts).lower i ≤ b.lower i ∧
      ((b.update_all pts).lower i = b.lower i ∨
        ∃ p ∈ pts, (b.update_all pts).lower i = p i) := by
  induction pts with
  | nil =>
    intro b
    refine ⟨fun p hp => (by cases hp), le_refl _, Or.inl rfl⟩
  | cons q rest ih =>
    intro b
    rw [update_all_cons]
    obtain ⟨hall, hle, hcase⟩ := ih (b.update_xyz q)
    rw [update_xyz_lower] at hle hcase
    refine ⟨?_, le_trans hle (min_le_right _ _), ?_⟩
    · intro p hp
      rcases List.mem_cons.mp hp with rfl | hp
      · exact le_trans hle (min_le_left _ _)
      · exact hall p hp
    · rcases hcase with heq | ⟨p, hp, heq⟩
      · rcases min_choice (q i) (b.lower i) with hm | hm
        · right
          exact ⟨q, List.mem_cons_self _ _, by rw [heq, hm]⟩
        · left
          rw [heq, hm]
      · right
        exact ⟨p, List.mem_cons_of_mem _ hp, heq⟩

/-- The upper corner after a run of updates is an upper bound of the points'
coordinates and of the previous corner, and is one of these values. -/
theorem update_all_upper (pts : List (Fin 3 → ℚ)) (i : Fin 3) :
    ∀ b : BBOX, (∀ p ∈ pts, p i ≤ (b.update_all pts).upper i) ∧
      b.upper i ≤ (b.update_all pts).upper i ∧
      ((b.update_all pts).upper i = b.upper i ∨
        ∃ p ∈ pts, (b.update_all pts).upper i = p i) := by
  induction pts with
  | nil =>
    intro b
    refine ⟨fun p hp => (by cases hp), le_refl _, Or.inl rfl⟩
  | cons q rest ih =>
    intro b
    rw [update_all_cons]
    obtain ⟨hall, hle, hcase⟩ := ih (b.update_xyz q)
    rw [update_xyz_upper] at hle hcase
    refine ⟨?_, le_trans (le_max_right _ _) hle, ?_⟩
    · intro p hp
      rcases List.mem_cons.mp hp with rfl | hp
      · exact le_trans (le_max_left _ _) hle
      · exact hall p hp
    · rcases hcase with heq | ⟨p, hp, heq⟩
      · rcases max_choice (q i) (b.upper i) with hm | hm
        · right
          exact ⟨q, List.mem_cons_self _ _, by rw [heq, hm]⟩
        · left
          rw [heq, hm]
      · right
        exact ⟨p, List.mem_cons_of_mem _ hp, heq⟩

theorem update_xyz_comm (b : BBOX) (p q : Fin 3 → ℚ) :
    (b.update_xyz p).update_xyz q = (b.update_xyz q).update_xyz p := by
  ext i
  · rw [update_xyz_lower, update_xyz_lower, update_xyz_lower, update_xyz_lower,
      min_left_comm]
  · rw [update_xyz_upper, update_xyz_upper, update_xyz_upper, update_xyz_upper,
      max_left_comm]

/-- C9: starting from a newly constructed box, after the updates with a
non-empty list of points whose coordinates lie within `[-INFTY, +INFTY]`,
on each axis `lower[i]` is the minimum of the points' i-th coordinates (it is
one of them and is below all of them) and `upper[i]` is their maximum; and
supplying the points in another order yields the same box. -/
theorem update_all_min_max (pts : List (Fin 3 → ℚ)) (hne : pts ≠ [])
    (hrange : ∀ p ∈ pts, ∀ i, -INFTY ≤ p i ∧ p i ≤ INFTY) :
    (∀ i, ((∃ p ∈ pts, (({} : BBOX).update_all pts).lower i = p i) ∧
            ∀ p ∈ pts, (({} : BBOX).update_all pts).lower i ≤ p i) ∧
          ((∃ p ∈ pts, (({} : BBOX).update_all pts).upper i = p i) ∧
            ∀ p ∈ pts, p i ≤ (({} : BBOX).update_all pts).upper i)) ∧
    (∀ pts2, pts2.Perm pts → ({} : BBOX).update_all pts2 = ({} : BBOX).update_all pts) := by
  constructor
  · intro i
    obtain ⟨p0, hp0⟩ := List.exists_mem_of_ne_nil pts hne
    obtain ⟨hlall, _, hlcase⟩ := update_all_lower pts i {}
    obtain ⟨huall, _, hucase⟩ := update_all_upper pts i {}
    refine ⟨⟨?_, hlall⟩, ⟨?_, huall⟩⟩
    · rcases hlcase with heq | hex
      · refine ⟨p0, hp0, le_antisymm (hlall p0 hp0) ?_⟩
        rw [heq, fresh_lower]
        exact (hrange p0 hp0 i).2
      · exact hex
    · rcases hucase with heq | hex
      · refine ⟨p0, hp0, le_antisymm ?_ (huall p0 hp0)⟩
        rw [heq, fresh_upper]
        exact (hrange p0 hp0 i).1
      · exact hex
  · intro pts2 hperm
    exact hperm.foldl_eq' (fun x _ y _ z => update_xyz_comm z x y) _

/-- C9 (witness): the two points `(1, 5, -2)` and `(3, 0, 4)`. -/
theorem update_all_min_max_witness :
    (∀ i, ((∃ p ∈ [![1, 5, -2], ![3, 0, 4]],
              (({} : BBOX).update_all [![1, 5, -2], ![3, 0, 4]]).lower i = p i) ∧
            ∀ p ∈ [![1, 5, -2], ![3, 0, 4]],
              (({} : BBOX).update_all [![1, 5, -2], ![3, 0, 4]]).lower i ≤ p i) ∧
          ((∃ p ∈ [![1, 5, -2], ![3, 0, 4]],
              (({} : BBOX).update_all [![1, 5, -2], ![3, 0, 4]]).upper i = p i) ∧
            ∀ p ∈ [![1, 5, -2], ![3, 0, 4]],
              p i ≤ (({} : BBOX).update_all [![1, 5, -2], ![3, 0, 4]]).upper i)) ∧
    (∀ pts2, pts2.Perm [![1, 5, -2], ![3, 0, 4]] →
      ({} : BBOX).update_all pts2 = ({} : BBOX).update_all [![1, 5, -2], ![3, 0, 4]]) :=
  update_all_min_max [![1, 5, -2], ![3, 0, 4]] (by simp) (by
    intro p hp i
    simp only [List.mem_cons, List.mem_singleton, List.not_mem_nil, or_false] at hp
    unfold INFTY
    rcases hp with rfl | rfl <;> fin_cases i <;> norm_num)

/-- C10: after `update(x, y, z)` the point is contained in the box, whatever
the box was before; the overload `update(xyz)` yields the same box as
`update(xyz[0], xyz[1], xyz[2])` and hence contains `xyz`. -/
theorem update_contains_point (b : BBOX) :
    (∀ x y z : ℚ, (b.update x y z).contains ![x, y, z]) ∧
    (∀ xyz : Fin 3 → ℚ, b.update_xyz xyz = b.update (xyz 0) (xyz 1) (xyz 2) ∧
      ∀ i, (b.update_xyz xyz).lower i ≤ xyz i ∧ xyz i ≤ (b.update_xyz xyz).upper i) := by
  constructor
  · intro x y z
    rw [update_eq_update_xyz]
    exact update_xyz_contains b _
  · intro xyz
    exact ⟨rfl, update_xyz_contains b xyz⟩

/-- After `expand(bump)` the corners on each axis are the previous ones moved
by `bump`. -/
theorem expand_corners (b : BBOX) (bump : ℚ) (i : Fin 3) :
    (b.expand bump).upper i = b.upper i + bump ∧
      (b.expand bump).lower i = b.lower i - bump := by
  fin_cases i <;> simp [expand, expand_axis, Function.update]

end BBOX

/-! ## C12: `moab_instance_sptr` -/

/-- C12: `moab_instance_sptr()` raises no error in any state of the instance:
it returns `MBI_shared_ptr` as it is and leaves the members unchanged; in
particular, when `MBI_shared_ptr` is null the null pointer is the normal
result of the call, the `std::runtime_error` being constructed and not
thrown. -/
theorem moab_instance_sptr_never_raises {Interface : Type} (m : MeshPointers Interface) :
    (∀ e, (moab_instance_sptr m).1 ≠ .error e) ∧
    (moab_instance_sptr m).1 = .ok m.MBI_shared_ptr ∧
    (moab_instance_sptr m).2 = m ∧
    (m.MBI_shared_ptr = none → (moab_instance_sptr m).1 = .ok none) := by
  have hres : moab_instance_sptr m = (.ok m.MBI_shared_ptr, m) := by
    unfold moab_instance_sptr expression_statement
    split_ifs <;> rfl
  rw [hres]
  refine ⟨?_, rfl, rfl, ?_⟩
  · intro e hc
    cases hc
  · intro hnull
    rw [hnull]

/-! ## C8: `expand` in the arithmetic of `double` -/

theorem Double.round_half_even_intCast (k : Int) : Double.round_half_even (k : ℚ) = k := by
  unfold Double.round_half_even
  simp

theorem Double.quantum_exp_le_of_lt {x : ℚ} {e : Int} (hx : x ≠ 0) (he : -1074 ≤ e)
    (hlt : |x| < 2 ^ (e + 53)) : Double.quantum_exp x ≤ e := by
  unfold Double.quantum_exp
  have hpos : 0 < |x| := abs_pos.mpr hx
  have hlog : Int.log 2 |x| < e + 53 := by
    have := (Int.lt_zpow_iff_log_lt (b := 2) (by norm_num) hpos (x := e + 53)).mp
      (by exact_mod_cast hlt)
    exact this
  exact max_le (by omega) he

theorem Double.abs_le_INFTY_of_representable {x : ℚ} (h : Double.representable x) :
    |x| ≤ BBOX.INFTY := by
  obtain ⟨m, e, hm, _, he, rfl⟩ := h
  rw [abs_mul, abs_of_pos (zpow_pos (by norm_num : (0 : ℚ) < 2) e)]
  have hm1 : |(m : ℚ)| ≤ 2 ^ 53 - 1 := by
    have h1 : |m| ≤ 2 ^ 53 - 1 := by omega
    have h2 : ((|m| : Int) : ℚ) ≤ 2 ^ 53 - 1 := by exact_mod_cast h1
    rwa [Int.cast_abs] at h2
  have he1 : (2 : ℚ) ^ e ≤ (2 : ℚ) ^ (971 : ℕ) := by
    rw [← zpow_natCast]
    exact zpow_le_zpow_right₀ (by norm_num) (by exact_mod_cast he)
  unfold BBOX.INFTY
  exact mul_le_mul hm1 he1 (le_of_lt (zpow_pos (by norm_num) e)) (by norm_num)

theorem Double.round_nearest_of_representable {x : ℚ} (h : Double.representable x) :
    Double.round_nearest x = .finite x := by
  have hbound := abs_le.mp (Double.abs_le_INFTY_of_representable h)
  have hy : (Double.round_half_even (x / 2 ^ Double.quantum_exp x) : ℚ) *
      2 ^ Double.quantum_exp x = x := by
    by_cases hx : x = 0
    · subst hx
      rw [zero_div]
      have := Double.round_half_even_intCast 0
      rw [Int.cast_zero] at this
      rw [this]
      simp
    · obtain ⟨m, e, hm, he0, _, hxe⟩ := h
      have hlt : |x| < 2 ^ (e + 53) := by
        rw [hxe, abs_mul, abs_of_pos (zpow_pos (by norm_num : (0 : ℚ) < 2) e),
          zpow_add₀ (by norm_num : (2 : ℚ) ≠ 0), mul_comm]
        apply mul_lt_mul_of_pos_left _ (zpow_pos (by norm_num) e)
        have h2 : ((|m| : Int) : ℚ) < 2 ^ 53 := by exact_mod_cast hm
        rw [Int.cast_abs] at h2
        exact_mod_cast h2
      have hq := Double.quantum_exp_le_of_lt hx he0 hlt
      generalize Double.quantum_exp x = q at hq ⊢
      obtain ⟨k, hk⟩ : ∃ k : ℕ, e = q + k := ⟨(e - q).toNat, by omega⟩
      have hdiv : x / 2 ^ q = ((m * 2 ^ k : Int) : ℚ) := by
        rw [hxe, hk, zpow_add₀ (by norm_num : (2 : ℚ) ≠ 0), zpow_natCast]
        push_cast
        field_simp
        ring
      rw [hdiv, Double.round_half_even_intCast, ← hdiv]
      exact div_mul_cancel₀ x (zpow_ne_zero q (by norm_num))
  unfold Double.round_nearest
  simp only [hy]
  rw [if_neg (not_lt.mpr hbound.2), if_neg (not_lt.mpr hbound.1)]


theorem Double.quantum_exp_eq {x : ℚ} {E : Int} (h1 : (2 : ℚ) ^ E ≤ |x|)
    (h2 : |x| < (2 : ℚ) ^ (E + 1)) : Double.quantum_exp x = max (E - 52) (-1074) := by
  have hpos : 0 < |x| := lt_of_lt_of_le (zpow_pos (by norm_num) E) h1
  have hle : E ≤ Int.log 2 |x| :=
    (Int.zpow_le_iff_le_log (by norm_num) hpos).mp (by exact_mod_cast h1)
  have hlt : Int.log 2 |x| < E + 1 :=
    (Int.lt_zpow_iff_log_lt (by norm_num) hpos).mp (by exact_mod_cast h2)
  unfold Double.quantum_exp
  have : Int.log 2 |x| = E := by omega
  rw [this]

theorem DoubleBox.expand_double_corners (b : DoubleBox) (bump : Double) (i : Fin 3) :
    (b.expand bump).upper i = (b.upper i).add bump ∧
      (b.expand bump).lower i = (b.lower i).sub bump := by
  fin_cases i <;> simp [DoubleBox.expand, DoubleBox.expand_axis, Function.update]

/-- The double nearest to `0.2 + 0.1`, the sum of the doubles nearest to `0.2`
and `0.1`: the exact sum lies half way between two doubles and goes to the
even one. -/
theorem Double.round_nearest_sum_tenths :
    Double.round_nearest (3602879701896397 / 2 ^ 54 + 3602879701896397 / 2 ^ 55) =
      .finite (1351079888211149 / 2 ^ 52) := by
  have hq : Double.quantum_exp (3602879701896397 / 2 ^ 54 + 3602879701896397 / 2 ^ 55)
      = -54 := by
    rw [Double.quantum_exp_eq (E := -2)]
    · rfl
    · rw [abs_of_pos (by norm_num)]
      norm_num
    · rw [abs_of_pos (by norm_num)]
      norm_num
  have hdiv : (3602879701896397 / 2 ^ 54 + 3602879701896397 / 2 ^ 55 : ℚ) / 2 ^ (-54 : Int)
      = 10808639105689191 / 2 := by
    norm_num
  have hfloor : ⌊(10808639105689191 / 2 : ℚ)⌋ = 5404319552844595 := by
    rw [Int.floor_eq_iff]
    constructor <;> norm_num
  have hr : Double.round_half_even (10808639105689191 / 2 : ℚ) = 5404319552844596 := by
    unfold Double.round_half_even
    rw [hfloor]
    norm_num
  unfold Double.round_nearest
  simp only [hq, hdiv, hr]
  have hy : ((5404319552844596 : Int) : ℚ) * 2 ^ (-54 : Int) = 1351079888211149 / 2 ^ 52 := by
    norm_num
  rw [hy]
  have hI := BBOX.INFTY_pos
  have h1 : ¬ BBOX.INFTY < (1351079888211149 / 2 ^ 52 : ℚ) := by
    unfold BBOX.INFTY
    norm_num
  have h2 : ¬ (1351079888211149 / 2 ^ 52 : ℚ) < -BBOX.INFTY := by
    have : (0 : ℚ) < 1351079888211149 / 2 ^ 52 := by norm_num
    linarith
  rw [if_neg h1, if_neg h2]

/-- Where the exact sums and differences are doubles, the method in the
arithmetic of `double` returns the box of the exact sums. -/
theorem expand_to_double (b : BBOX) (bump : ℚ)
    (h : ∀ i, Double.representable (b.upper i + bump) ∧
      Double.representable (b.lower i - bump)) :
    b.to_double.expand (.finite bump) = (b.expand bump).to_double := by
  ext i
  · rw [(DoubleBox.expand_double_corners _ _ i).2]
    show Double.round_nearest (b.lower i - bump) = .finite ((b.expand bump).lower i)
    rw [(BBOX.expand_corners b bump i).2, Double.round_nearest_of_representable (h i).2]
  · rw [(DoubleBox.expand_double_corners _ _ i).1]
    show Double.round_nearest (b.upper i + bump) = .finite ((b.expand bump).upper i)
    rw [(BBOX.expand_corners b bump i).1, Double.round_nearest_of_representable (h i).1]

/-- C8 (counterexample): the box with lower corners at the double nearest to
`0.1` and upper corners at the double nearest to `0.2`, expanded by the double
nearest to `0.1`. The three numbers are doubles; after the call `upper[0]` is
`1351079888211149 / 2^52`, which is not the previous value plus `bump`. -/
theorem expand_sum_is_rounded :
    Double.representable (3602879701896397 / 2 ^ 55) ∧
    Double.representable (3602879701896397 / 2 ^ 54) ∧
    ((DoubleBox.mk (fun _ => .finite (3602879701896397 / 2 ^ 55))
        (fun _ => .finite (3602879701896397 / 2 ^ 54))).expand
      (.finite (3602879701896397 / 2 ^ 55))).upper 0
      = .finite (1351079888211149 / 2 ^ 52) ∧
    (1351079888211149 / 2 ^ 52 : ℚ) ≠ 3602879701896397 / 2 ^ 54 + 3602879701896397 / 2 ^ 55 := by
  refine ⟨⟨3602879701896397, -55, by norm_num, by norm_num, by norm_num, by norm_num⟩,
    ⟨3602879701896397, -54, by norm_num, by norm_num, by norm_num, by norm_num⟩, ?_, by norm_num⟩
  rw [(DoubleBox.expand_double_corners _ _ 0).1]
  exact Double.round_nearest_sum_tenths

/-- C8 (amended): for every box state and every `bump`, infinities and NaN
included, after `expand(bump)` on each of the three axes `upper[i]` is the
double sum of its previous value and `bump` and `lower[i]` the double
difference of its previous value and `bump`, and the box has no other state.
For finite operands the double sum is the exact sum rounded to the nearest
double, and it is the exact sum whenever that is a double; likewise the
difference. -/
theorem expand_double_spec (b : DoubleBox) (bump : Double) :
    (∀ i, (b.expand bump).upper i = (b.upper i).add bump ∧
      (b.expand bump).lower i = (b.lower i).sub bump) ∧
    b.expand bump = ⟨fun i => (b.lower i).sub bump, fun i => (b.upper i).add bump⟩ ∧
    (∀ i u y, b.upper i = .finite u → bump = .finite y →
      (b.expand bump).upper i = Double.round_nearest (u + y) ∧
      (Double.representable (u + y) → (b.expand bump).upper i = .finite (u + y))) ∧
    (∀ i l y, b.lower i = .finite l → bump = .finite y →
      (b.expand bump).lower i = Double.round_nearest (l - y) ∧
      (Double.representable (l - y) → (b.expand bump).lower i = .finite (l - y))) := by
  refine ⟨DoubleBox.expand_double_corners b bump, ?_, ?_, ?_⟩
  · ext i
    · exact (DoubleBox.expand_double_corners b bump i).2
    · exact (DoubleBox.expand_double_corners b bump i).1
  · intro i u y hu hy
    have hval : (b.expand bump).upper i = Double.round_nearest (u + y) := by
      rw [(DoubleBox.expand_double_corners b bump i).1, hu, hy]
      rfl
    exact ⟨hval, fun hrep => by rw [hval, Double.round_nearest_of_representable hrep]⟩
  · intro i l y hl hy
    have hval : (b.expand bump).lower i = Double.round_nearest (l - y) := by
      rw [(DoubleBox.expand_double_corners b bump i).2, hl, hy]
      rfl
    exact ⟨hval, fun hrep => by rw [hval, Double.round_nearest_of_representable hrep]⟩

/-- C8 (witness): the unit box expanded by `1/2`: the sum `1 + 1/2` and the
difference `0 - 1/2` are doubles, and the corners after the call are `3/2` and
`-1/2`. -/
theorem expand_double_spec_witness :
    ((DoubleBox.mk (fun _ => .finite 0) (fun _ => .finite 1)).expand (.finite (1 / 2))).upper 0
      = .finite (1 + 1 / 2) ∧
    ((DoubleBox.mk (fun _ => .finite 0) (fun _ => .finite 1)).expand (.finite (1 / 2))).lower 0
      = .finite (0 - 1 / 2) :=
  ⟨((expand_double_spec (DoubleBox.mk (fun _ => .finite 0) (fun _ => .finite 1))
      (.finite (1 / 2))).2.2.1 0 1 (1 / 2) rfl rfl).2
      ⟨3, -1, by norm_num, by norm_num, by norm_num, by norm_num⟩,
   ((expand_double_spec (DoubleBox.mk (fun _ => .finite 0) (fun _ => .finite 1))
      (.finite (1 / 2))).2.2.2 0 0 (1 / 2) rfl rfl).2
      ⟨-1, -1, by norm_num, by norm_num, by norm_num, by norm_num⟩⟩

/-! ## The order facts of `expand` in the arithmetic of `double` -/

theorem Double.le_round_half_even {k : Int} {r : ℚ} (h : (k : ℚ) ≤ r) :
    k ≤ Double.round_half_even r := by
  have hf : k ≤ ⌊r⌋ := Int.le_floor.mpr h
  unfold Double.round_half_even
  split_ifs <;> omega

theorem Double.round_half_even_le {k : Int} {r : ℚ} (h : r ≤ (k : ℚ)) :
    Double.round_half_even r ≤ k := by
  rcases eq_or_lt_of_le h with heq | hlt
  · rw [heq, Double.round_half_even_intCast]
  · have hf : ⌊r⌋ < k := Int.floor_lt.mpr hlt
    unfold Double.round_half_even
    split_ifs <;> omega

theorem Double.abs_lt_of_mantissa {m e : Int} (hm : |m| < 2 ^ 53) :
    |(m : ℚ) * 2 ^ e| < 2 ^ (e + 53) := by
  rw [abs_mul, abs_of_pos (zpow_pos (by norm_num : (0 : ℚ) < 2) e),
    zpow_add₀ (by norm_num : (2 : ℚ) ≠ 0), mul_comm]
  apply mul_lt_mul_of_pos_left _ (zpow_pos (by norm_num) e)
  have h2 : ((|m| : Int) : ℚ) < 2 ^ 53 := by exact_mod_cast hm
  rw [Int.cast_abs] at h2
  exact_mod_cast h2

theorem Double.zpow_log_le_abs {x : ℚ} (hx : x ≠ 0) : (2 : ℚ) ^ Int.log 2 |x| ≤ |x| := by
  have := Int.zpow_log_le_self (b := 2) (r := |x|) (by norm_num) (abs_pos.mpr hx)
  exact_mod_cast this

theorem Double.abs_lt_zpow_log_succ (x : ℚ) : |x| < (2 : ℚ) ^ (Int.log 2 |x| + 1) := by
  have := Int.lt_zpow_succ_log_self (b := 2) (by norm_num) |x|
  exact_mod_cast this

/-- A double whose magnitude reaches the binade of `x` is a multiple of the
spacing of the doubles around `x`. -/
theorem Double.multiple_of_quantum {d x : ℚ} (hd : Double.representable d)
    (h : (2 : ℚ) ^ Int.log 2 |x| ≤ |d|) :
    ∃ k : Int, d = (k : ℚ) * 2 ^ Double.quantum_exp x := by
  obtain ⟨m, e, hm, he0, _, hde⟩ := hd
  have hlt : (2 : ℚ) ^ Int.log 2 |x| < 2 ^ (e + 53) := by
    rw [hde] at h
    exact lt_of_le_of_lt h (Double.abs_lt_of_mantissa hm)
  have hE : Int.log 2 |x| < e + 53 := (zpow_lt_zpow_iff_right₀ (by norm_num)).mp hlt
  have hq : Double.quantum_exp x ≤ e := by
    unfold Double.quantum_exp
    exact max_le (by omega) he0
  generalize Double.quantum_exp x = q at hq ⊢
  obtain ⟨j, hj⟩ : ∃ j : ℕ, e = q + j := ⟨(e - q).toNat, by omega⟩
  refine ⟨m * 2 ^ j, ?_⟩
  rw [hde, hj, zpow_add₀ (by norm_num : (2 : ℚ) ≠ 0), zpow_natCast]
  push_cast
  ring

theorem Double.pos_representable_ge {d : ℚ} (hd : Double.representable d) (hpos : 0 < d) :
    (2 : ℚ) ^ (-1074 : Int) ≤ d := by
  obtain ⟨m, e, _, he0, _, rfl⟩ := hd
  have h2 : (0 : ℚ) < 2 ^ e := zpow_pos (by norm_num) e
  have hm : (0 : ℚ) < (m : ℚ) := by
    by_contra hneg
    have : (m : ℚ) * 2 ^ e ≤ 0 := mul_nonpos_of_nonpos_of_nonneg (not_lt.mp hneg) h2.le
    linarith
  have hm1 : (1 : ℚ) ≤ (m : ℚ) := by
    have : (0 : Int) < m := by exact_mod_cast hm
    exact_mod_cast this
  calc (2 : ℚ) ^ (-1074 : Int) ≤ 2 ^ e := zpow_le_zpow_right₀ (by norm_num) he0
    _ = 1 * 2 ^ e := (one_mul _).symm
    _ ≤ (m : ℚ) * 2 ^ e := mul_le_mul_of_nonneg_right hm1 h2.le

/-- Between a double `d` and a number `x` above it lies a multiple of the
spacing of the doubles around `x`. -/
theorem Double.multiple_between {d x : ℚ} (hd : Double.representable d) (h : d ≤ x) :
    ∃ k : Int, d ≤ (k : ℚ) * 2 ^ Double.quantum_exp x ∧
      (k : ℚ) * 2 ^ Double.quantum_exp x ≤ x := by
  by_cases hdpos : 0 < d
  · have hxpos : 0 < x := lt_of_lt_of_le hdpos h
    have hlog : (2 : ℚ) ^ Int.log 2 |x| ≤ x :=
      le_trans (Double.zpow_log_le_abs (ne_of_gt hxpos)) (le_of_eq (abs_of_pos hxpos))
    by_cases hcmp : (2 : ℚ) ^ Int.log 2 |x| ≤ d
    · obtain ⟨k, hk⟩ := Double.multiple_of_quantum (x := x) hd
        (by rw [abs_of_pos hdpos]; exact hcmp)
      exact ⟨k, le_of_eq hk, by rw [← hk]; exact h⟩
    · have hsmall := Double.pos_representable_ge hd hdpos
      have hup : x < (2 : ℚ) ^ (Int.log 2 |x| + 1) :=
        lt_of_le_of_lt (le_of_eq (abs_of_pos hxpos).symm) (Double.abs_lt_zpow_log_succ x)
      have hE : (-1074 : Int) < Int.log 2 |x| + 1 :=
        (zpow_lt_zpow_iff_right₀ (by norm_num : (1 : ℚ) < 2)).mp
          (lt_of_le_of_lt (le_trans hsmall h) hup)
      have hq : Double.quantum_exp x ≤ Int.log 2 |x| := by
        unfold Double.quantum_exp
        exact max_le (by omega) (by omega)
      generalize Double.quantum_exp x = q at hq ⊢
      generalize Int.log 2 |x| = E at hq hcmp hlog
      obtain ⟨j, hj⟩ : ∃ j : ℕ, E = q + j := ⟨(E - q).toNat, by omega⟩
      have hval : (((2 : Int) ^ j : Int) : ℚ) * 2 ^ q = 2 ^ E := by
        rw [hj, zpow_add₀ (by norm_num : (2 : ℚ) ≠ 0), zpow_natCast]
        push_cast
        ring
      exact ⟨2 ^ j, by rw [hval]; exact le_of_lt (not_le.mp hcmp), by rw [hval]; exact hlog⟩
  · have hd0 : d ≤ 0 := not_lt.mp hdpos
    by_cases hx0 : 0 ≤ x
    · exact ⟨0, by simpa using hd0, by simpa using hx0⟩
    · have hxneg : x < 0 := not_le.mp hx0
      have hlog := Double.zpow_log_le_abs (ne_of_lt hxneg)
      have habs : |x| ≤ |d| := by
        rw [abs_of_neg hxneg, abs_of_nonpos hd0]
        linarith
      obtain ⟨k, hk⟩ := Double.multiple_of_quantum (x := x) hd (le_trans hlog habs)
      exact ⟨k, le_of_eq hk, by rw [← hk]; exact h⟩

theorem Double.neg_representable {d : ℚ} (hd : Double.representable d) :
    Double.representable (-d) := by
  obtain ⟨m, e, hm, he0, he1, rfl⟩ := hd
  exact ⟨-m, e, by rwa [abs_neg], he0, he1, by push_cast; ring⟩

theorem Double.quantum_exp_neg (x : ℚ) : Double.quantum_exp (-x) = Double.quantum_exp x := by
  unfold Double.quantum_exp
  rw [abs_neg]

/-- Between a number `x` and a double `d` above it lies a multiple of the
spacing of the doubles around `x`. -/
theorem Double.multiple_between_below {d x : ℚ} (hd : Double.representable d) (h : x ≤ d) :
    ∃ k : Int, x ≤ (k : ℚ) * 2 ^ Double.quantum_exp x ∧
      (k : ℚ) * 2 ^ Double.quantum_exp x ≤ d := by
  obtain ⟨k, hk1, hk2⟩ := Double.multiple_between (Double.neg_representable hd)
    (neg_le_neg h)
  rw [Double.quantum_exp_neg] at hk1 hk2
  refine ⟨-k, ?_, ?_⟩
  · push_cast
    linarith
  · push_cast
    linarith

/-- Rounding does not cross a double from above: the rounding of a number at
or above the double `d` is at or above `d`. -/
theorem Double.le_round_nearest {d x : ℚ} (hd : Double.representable d) (h : d ≤ x) :
    (Double.finite d).le (Double.round_nearest x) = true := by
  obtain ⟨k, hk1, hk2⟩ := Double.multiple_between hd h
  have hqpos : (0 : ℚ) < 2 ^ Double.quantum_exp x := zpow_pos (by norm_num) _
  have hkr : k ≤ Double.round_half_even (x / 2 ^ Double.quantum_exp x) :=
    Double.le_round_half_even ((le_div_iff₀ hqpos).mpr hk2)
  have hy : d ≤ (Double.round_half_even (x / 2 ^ Double.quantum_exp x) : ℚ) *
      2 ^ Double.quantum_exp x :=
    le_trans hk1 (mul_le_mul_of_nonneg_right (by exact_mod_cast hkr) hqpos.le)
  have hdb := abs_le.mp (Double.abs_le_INFTY_of_representable hd)
  unfold Double.round_nearest
  simp only
  split_ifs with h1 h2
  · rfl
  · linarith [hdb.1]
  · simp [Double.le, hy]

/-- Rounding does not cross a double from below: the rounding of a number at
or below the double `d` is at or below `d`. -/
theorem Double.round_nearest_le {d x : ℚ} (hd : Double.representable d) (h : x ≤ d) :
    (Double.round_nearest x).le (Double.finite d) = true := by
  obtain ⟨k, hk1, hk2⟩ := Double.multiple_between_below hd h
  have hqpos : (0 : ℚ) < 2 ^ Double.quantum_exp x := zpow_pos (by norm_num) _
  have hkr : Double.round_half_even (x / 2 ^ Double.quantum_exp x) ≤ k :=
    Double.round_half_even_le ((div_le_iff₀ hqpos).mpr hk1)
  have hy : (Double.round_half_even (x / 2 ^ Double.quantum_exp x) : ℚ) *
      2 ^ Double.quantum_exp x ≤ d :=
    le_trans (mul_le_mul_of_nonneg_right (by exact_mod_cast hkr) hqpos.le) hk2
  have hdb := abs_le.mp (Double.abs_le_INFTY_of_representable hd)
  unfold Double.round_nearest
  simp only
  split_ifs with h1 h2
  · linarith [hdb.2]
  · rfl
  · simp [Double.le, hy]

theorem Double.le_finite_of_le {a : Double} {x y : ℚ} (h : a.le (.finite x) = true)
    (hxy : x ≤ y) : a.le (.finite y) = true := by
  cases a with
  | finite v =>
    simp only [Double.le, decide_eq_true_eq] at h ⊢
    exact le_trans h hxy
  | pos_inf => simp [Double.le] at h
  | neg_inf => rfl
  | nan => simp [Double.le] at h

theorem Double.finite_le_of_le {c : Double} {x y : ℚ} (h : (Double.finite y).le c = true)
    (hxy : x ≤ y) : (Double.finite x).le c = true := by
  cases c with
  | finite v =>
    simp only [Double.le, decide_eq_true_eq] at h ⊢
    exact le_trans hxy h
  | pos_inf => rfl
  | neg_inf => simp [Double.le] at h
  | nan => simp [Double.le] at h

theorem Double.le_of_le_finite_le {a c : Double} {x : ℚ} (h1 : a.le (.finite x) = true)
    (h2 : (Double.finite x).le c = true) : a.le c = true := by
  cases a <;> cases c <;> simp_all [Double.le]
  exact le_trans h1 h2

theorem DoubleBox.valid_double_iff (b : DoubleBox) :
    b.valid = true ↔ ∀ i, (b.lower i).le (b.upper i) = true := by
  unfold DoubleBox.valid
  simp only [Bool.and_eq_true]
  constructor
  · rintro ⟨⟨h0, h1⟩, h2⟩ i
    fin_cases i
    · exact h0
    · exact h1
    · exact h2
  · intro h
    exact ⟨⟨h 0, h 1⟩, h 2⟩

/-- The order facts of `expand` in the arithmetic of `double`: on a valid box
whose corners are finite doubles, for a finite `bump >= 0`, rounding and
overflow included, the box after `expand(bump)` is valid and every point the
box contained is between its corners. -/
theorem double_expand_keeps_order (b : BBOX) (bump : ℚ)
    (hrep : ∀ i, Double.representable (b.lower i) ∧ Double.representable (b.upper i))
    (hv : b.valid = true) (hb : 0 ≤ bump) :
    (b.to_double.expand (.finite bump)).valid = true ∧
    ∀ p, b.contains p → ∀ i,
      ((b.to_double.expand (.finite bump)).lower i).le (.finite (p i)) = true ∧
      (Double.finite (p i)).le ((b.to_double.expand (.finite bump)).upper i) = true := by
  have hlow : ∀ i, ((b.to_double.expand (.finite bump)).lower i).le (.finite (b.lower i))
      = true := by
    intro i
    rw [(DoubleBox.expand_double_corners _ _ i).2]
    exact Double.round_nearest_le (hrep i).1 (by linarith)
  have hup : ∀ i, (Double.finite (b.upper i)).le ((b.to_double.expand (.finite bump)).upper i)
      = true := by
    intro i
    rw [(DoubleBox.expand_double_corners _ _ i).1]
    exact Double.le_round_nearest (hrep i).2 (by linarith)
  rw [BBOX.valid_iff] at hv
  constructor
  · rw [DoubleBox.valid_double_iff]
    intro i
    exact Double.le_of_le_finite_le (Double.le_finite_of_le (hlow i) (hv i)) (hup i)
  · intro p hp i
    exact ⟨Double.le_finite_of_le (hlow i) (hp i).1, Double.finite_le_of_le (hup i) (hp i).2⟩

/-- An instance of the order facts: the unit box expanded by the double
nearest to `0.1`, a sum that is rounded. -/
theorem double_expand_keeps_order_unit :
    ((⟨![0, 0, 0], ![1, 1, 1]⟩ : BBOX).to_double.expand
      (.finite (3602879701896397 / 2 ^ 55))).valid = true :=
  (double_expand_keeps_order ⟨![0, 0, 0], ![1, 1, 1]⟩ (3602879701896397 / 2 ^ 55)
    (fun i => by
      fin_cases i <;>
        exact ⟨⟨0, 0, by norm_num, by norm_num, by norm_num, by norm_num⟩,
          ⟨1, 0, by norm_num, by norm_num, by norm_num, by norm_num⟩⟩)
    (by rw [BBOX.valid_iff]; intro i; fin_cases i <;> simp)
    (by norm_num)).1

/-- In the arithmetic of `double` too a negative `bump` can make a valid box
invalid: the unit box expanded by `-1`, where the sums are exact. -/
theorem double_expand_negative_invalid :
    ((⟨![0, 0, 0], ![1, 1, 1]⟩ : BBOX).to_double.expand (.finite (-1))).valid = false := by
  rw [Bool.eq_false_iff, Ne, DoubleBox.valid_double_iff]
  intro h
  have h0 := h 0
  rw [(DoubleBox.expand_double_corners _ _ 0).1, (DoubleBox.expand_double_corners _ _ 0).2] at h0
  have e1 : (((⟨![0, 0, 0], ![1, 1, 1]⟩ : BBOX).to_double.upper 0).add (.finite (-1)))
      = .finite 0 := by
    show Double.round_nearest ((1 : ℚ) + -1) = .finite 0
    rw [Double.round_nearest_of_representable
      ⟨0, 0, by norm_num, by norm_num, by norm_num, by norm_num⟩]
    norm_num
  have e2 : (((⟨![0, 0, 0], ![1, 1, 1]⟩ : BBOX).to_double.lower 0).sub (.finite (-1)))
      = .finite 1 := by
    show Double.round_nearest ((0 : ℚ) - -1) = .finite 1
    rw [Double.round_nearest_of_representable
      ⟨1, 0, by norm_num, by norm_num, by norm_num, by norm_num⟩]
    norm_num
  rw [e1, e2] at h0
  simp only [Double.le, decide_eq_true_eq] at h0
  norm_num at h0

end DagMC

end moab
